import Mathlib

/-!
# toydb: a Bitcask-style key-value store

A shallow embedding of `main.go`: the record codec (`encodeHeader`, `decodeHeader`,
`encodeKV`, `decodeKV`), the index (`keyDir`, `keyMap`), and the engine
(`open`, `get`, `set`, `delete`, `close`) over an explicit model of the log file.

Conventions of the embedding.

* A Go `string` or `[]byte` is a list of bytes (`Bytes`).
* A `uint32` is a natural number; every place where the source converts to `uint32`
  or adds `uint32` values reduces modulo `2 ^ 32` explicitly.
* A Go `int` that holds a length or the write cursor is a natural number (the 64-bit
  wrap of `int` is not modelled: it needs a log of `2 ^ 63` bytes).
* `time.Now().Unix()` is an input of `set` and `delete` (an `Int`, the `int64` result).
* A run-time panic (slice bounds out of range) and `log.Fatal` are the result `none`.
* Calls into the operating system that the source does not check are taken to
  succeed: `Seek`, `Write`, `Sync`, `Close`. `Write` writes the whole buffer (it loops
  until all bytes are written). `Read` is one read of at most `2 ^ 30` bytes (`maxRW`),
  and `get` does not look at the number of bytes read.
-/

namespace Toydb

/-! ## Bytes and fixed-width integers -/

/-- A Go `string` or `[]byte`. -/
abbrev Bytes := List UInt8

/-- The conversion `uint32(n)` of a non-negative `int`. -/
def uint32 (n : Nat) : Nat := n % 4294967296

/-- The conversion `uint32(t)` of an `int64`: the low 32 bits in two's complement. -/
def uint32OfInt64 (t : Int) : Nat := (t % 4294967296).toNat

/-- The slice expression `data[lo:hi]`. It panics (`none`) unless `lo ≤ hi ≤ cap(data)`;
every buffer that the program slices is one whose capacity is its length
(`make([]byte, n)`), or is sliced within its length. -/
def slice? (data : Bytes) (lo hi : Nat) : Option Bytes :=
  if lo ≤ hi ∧ hi ≤ data.length then some ((data.take hi).drop lo) else none

/-- `binary.LittleEndian.PutUint32(b, v)`:
`b[0] = byte(v); b[1] = byte(v >> 8); b[2] = byte(v >> 16); b[3] = byte(v >> 24)`. -/
def putUint32 (v : Nat) : Bytes :=
  [UInt8.ofNat v, UInt8.ofNat (v >>> 8), UInt8.ofNat (v >>> 16), UInt8.ofNat (v >>> 24)]

/-- `binary.LittleEndian.Uint32(b)`:
`uint32(b[0]) | uint32(b[1])<<8 | uint32(b[2])<<16 | uint32(b[3])<<24`;
it panics when `b` has fewer than four bytes. -/
def getUint32 (b : Bytes) : Option Nat :=
  match b with
  | b0 :: b1 :: b2 :: b3 :: _ =>
    some (b0.toNat ||| b1.toNat <<< 8 ||| b2.toNat <<< 16 ||| b3.toNat <<< 24)
  | _ => none

/-! ## Record codec -/

/-- `const headerSize = 12`. -/
def headerSize : Nat := 12

/-- `encodeHeader`: three little-endian `uint32` fields in a 12-byte array. -/
def encodeHeader (timestamp keySize valueSize : Nat) : Bytes :=
  putUint32 timestamp ++ putUint32 keySize ++ putUint32 valueSize

/-- `decodeHeader`: reads the three fields from `data[0:4]`, `data[4:8]`, `data[8:12]`. -/
def decodeHeader (data : Bytes) : Option (Nat × Nat × Nat) := do
  let timestamp ← (slice? data 0 4).bind getUint32
  let keySize ← (slice? data 4 8).bind getUint32
  let valueSize ← (slice? data 8 12).bind getUint32
  pure (timestamp, keySize, valueSize)

/-- `encodeKV`: header, then the key bytes, then the value bytes; returns the buffer
and its length. The two length fields are `uint32(len(key))` and `uint32(len(value))`. -/
def encodeKV (timestamp : Nat) (key value : Bytes) : Bytes × Nat :=
  let header := encodeHeader timestamp (uint32 key.length) (uint32 value.length)
  let kvBytes := header ++ key
  let kvBytes := kvBytes ++ value
  (kvBytes, kvBytes.length)

/-- `decodeKV`: `headerSize+keySize` and `headerSize+keySize+valueSize` are `uint32`
sums, so they wrap modulo `2 ^ 32`; each slice expression can panic. -/
def decodeKV (data : Bytes) : Option (Nat × Bytes × Bytes) := do
  let (timestamp, keySize, valueSize) ← (slice? data 0 headerSize).bind decodeHeader
  let keyEnd := uint32 (headerSize + keySize)
  let valueEnd := uint32 (keyEnd + valueSize)
  let key ← slice? data headerSize keyEnd
  let value ← slice? data keyEnd valueEnd
  pure (timestamp, key, value)

/-- Specification side of the record layout: `bs` is the 4-byte little-endian
encoding of `n`, least significant byte first. -/
def IsLittleEndian32 (bs : Bytes) (n : Nat) : Prop :=
  ∃ b0 b1 b2 b3 : UInt8, bs = [b0, b1, b2, b3] ∧
    b0.toNat + 256 * b1.toNat + 256 ^ 2 * b2.toNat + 256 ^ 3 * b3.toNat = n

/-! ## Index -/

/-- `type keyDir struct { Timestamp, Position, TotalSize uint32 }`. -/
structure keyDir where
  Timestamp : Nat
  Position : Nat
  TotalSize : Nat
deriving DecidableEq

/-- `newKeyDir`. -/
def newKeyDir (timestamp position totalSize : Nat) : keyDir :=
  { Timestamp := timestamp, Position := position, TotalSize := totalSize }

/-- `map[string]keyDir`: a finite map with at most one entry per key. -/
abbrev KeyMap := AList (fun _ : Bytes => keyDir)

/-! ## Log file -/

/-- An open `*os.File` on the log: the bytes of the file, the file offset of the
descriptor, and whether the descriptor was opened with `O_APPEND`. -/
structure File where
  contents : Bytes
  offset : Nat
  append : Bool
deriving DecidableEq

/-- `f.Seek(pos, 0)`: sets the file offset. -/
def File.Seek (f : File) (pos : Nat) : File :=
  { f with offset := pos }

/-- `const maxRW = 1 << 30` of the Go runtime (`internal/poll`): the largest number of
bytes that one `Read` of a file transfers. -/
def maxRW : Nat := 1073741824

/-- `f.Read(buf)` on a zeroed buffer of `n` bytes (`make([]byte, n)`): one read, which
copies the bytes the file holds from the file offset on, at most `n` and at most
`maxRW` (a longer buffer is cut to `maxRW` bytes before the read), and advances the
offset by the number of bytes copied; the rest of the buffer stays zero. Returns the
buffer; the caller in `get` drops the count of bytes read. -/
def File.Read (f : File) (n : Nat) : Bytes × File :=
  let got := (f.contents.drop f.offset).take (min n maxRW)
  (got ++ List.replicate (n - got.length) 0, { f with offset := f.offset + got.length })

/-- `f.Write(b)`. With `O_APPEND` the bytes go to the end of the file whatever the file
offset is; without it they go to the file offset, over the bytes that are there (a
gap past the end of the file is filled with zeros). The offset ends after the bytes
written. -/
def File.Write (f : File) (b : Bytes) : File :=
  if b = [] then f
  else if f.append then
    { f with contents := f.contents ++ b, offset := f.contents.length + b.length }
  else
    let padded := f.contents ++ List.replicate (f.offset - f.contents.length) 0
    { f with
      contents := padded.take f.offset ++ b ++ padded.drop (f.offset + b.length)
      offset := f.offset + b.length }

/-! ## Engine -/

/-- `type database struct { file; offsetPosition int; keyMap }`. -/
structure database where
  file : File
  offsetPosition : Nat
  keyMap : KeyMap
deriving DecidableEq

/-- The files of a store while no engine has it open: the log file (`none` when it
does not exist) and the snapshot file `data_map.gob` (`some m` when it holds the gob
encoding of the map `m`, `none` when it is missing, empty or not decodable; gob is
taken to round-trip a map exactly). -/
structure Disk where
  log : Option Bytes
  snapshot : Option KeyMap

/-- `open`. A missing log file is created with `os.Create` (no `O_APPEND`) and the
index starts empty. An existing log file is opened with `O_APPEND` and the index is
decoded from the snapshot file; a decoding error ends the process (`log.Fatalf`).
On neither path is `offsetPosition` assigned, so it has the zero value. -/
def openStore (disk : Disk) : Option database :=
  match disk.log with
  | none => some { file := { contents := [], offset := 0, append := false },
                   offsetPosition := 0, keyMap := ∅ }
  | some bytes =>
    match disk.snapshot with
    | none => none
    | some keyMap => some { file := { contents := bytes, offset := 0, append := true },
                            offsetPosition := 0, keyMap := keyMap }

/-- `get`: the empty string for a key that is not in the index; otherwise seeks to the
entry's position, reads `TotalSize` bytes and decodes them. The read moves the file
offset of the descriptor. -/
def database.get (d : database) (key : Bytes) : Option (Bytes × database) :=
  match d.keyMap.lookup key with
  | none => some ([], d)
  | some value =>
    let file := d.file.Seek value.Position
    let (dataArr, file) := file.Read value.TotalSize
    match decodeKV dataArr with
    | none => none
    | some (_, _, valueFromFile) => some (valueFromFile, { d with file := file })

/-- `set`, at wall-clock time `now`. -/
def database.set (d : database) (now : Int) (key value : Bytes) : database :=
  let timestamp := now
  let (encodedValues, totalSize) := encodeKV (uint32OfInt64 timestamp) key value
  let keyMap := d.keyMap.insert key
    (newKeyDir (uint32OfInt64 timestamp) (uint32 d.offsetPosition) (uint32 totalSize))
  let offsetPosition := d.offsetPosition + totalSize
  { file := d.file.Write encodedValues, offsetPosition := offsetPosition, keyMap := keyMap }

/-- The error text of `delete` for a key that is not in the index. -/
def keyNotFound : String := "key not found!"

/-- The text `"deleted"` that `delete` writes as the value. -/
def deleted : Bytes := [100, 101, 108, 101, 116, 101, 100]

/-- `delete`, at wall-clock time `now`: returns the state after the call and the error. -/
def database.delete (d : database) (now : Int) (key : Bytes) : database × Option String :=
  match d.keyMap.lookup key with
  | none => (d, some keyNotFound)
  | some _ =>
    let timestamp := now
    let (byteArr, totalSize) := encodeKV (uint32OfInt64 timestamp) key deleted
    let keyMap := d.keyMap.insert key
      (newKeyDir (uint32OfInt64 timestamp) (uint32 d.offsetPosition) (uint32 totalSize))
    ({ file := d.file.Write byteArr, offsetPosition := d.offsetPosition + totalSize,
       keyMap := keyMap }, none)

/-- `close`: syncs and closes the log file, then `persistKeyDir` writes the index to
the snapshot file, replacing what was there. -/
def database.close (d : database) : Disk :=
  { log := some d.file.contents, snapshot := some d.keyMap }

/-- The next write lands at the write cursor and the write cursor is the length of
the log file. -/
def database.Aligned (d : database) : Prop :=
  d.offsetPosition = d.file.contents.length ∧
    (d.file.append = true ∨ d.file.offset = d.file.contents.length)

/-! ## Concrete stores used to evaluate the engine -/

/-- A store that does not exist yet. -/
def noStore : Disk := { log := none, snapshot := none }

/-- The key `"a"`. -/
def keyA : Bytes := [97]

/-- The key `"b"`. -/
def keyB : Bytes := [98]

/-- The key `"c"`. -/
def keyC : Bytes := [99]

/-- The value `"1"`. -/
def val1 : Bytes := [49]

/-- The value `"2"`. -/
def val2 : Bytes := [50]

/-- The value `"3"`. -/
def val3 : Bytes := [51]

/-- The engine that `open` returns for a store that does not exist yet. -/
def freshDB : database :=
  { file := { contents := [], offset := 0, append := false }, offsetPosition := 0, keyMap := ∅ }

/-- A first session `open; set("a","1"); close`, then `open` again. -/
def reopened : Option database :=
  (openStore noStore).bind fun d => openStore (d.set 0 keyA val1).close

/-- A fresh store after `set("a","1"); set("b","2"); get("a")`. -/
def interleaved : Option database :=
  (openStore noStore).bind fun d =>
    (((d.set 0 keyA val1).set 0 keyB val2).get keyA).map Prod.snd

/-- A value of `2 ^ 32 - 13` zero bytes: with a one-byte key its record is exactly
`2 ^ 32` bytes long. -/
def bigValue : Bytes := List.replicate 4294967283 0

/-- An index entry `e` for the key `k` points at a valid, complete record of `log`:
the log holds the bytes `[Position, Position + TotalSize)`, they decode with
`decodeKV` to a record whose key is `k`, and the encoded length of that record is
`TotalSize`. -/
def ValidEntry (log : Bytes) (k : Bytes) (e : keyDir) : Prop :=
  e.Position + e.TotalSize ≤ log.length ∧
    ∃ ts v, (slice? log e.Position (e.Position + e.TotalSize)).bind decodeKV = some (ts, k, v) ∧
      (encodeKV ts k v).1.length = e.TotalSize

/-- The entry `e` is the position and size of a record for `k` that was appended to
`log` with all of its fields within 32 bits. -/
def PointsAt (log : Bytes) (k : Bytes) (e : keyDir) : Prop :=
  ∃ (pre post : Bytes) (ts : Nat) (v : Bytes),
    log = pre ++ (encodeKV ts k v).1 ++ post ∧ e.Position = pre.length ∧
      e.TotalSize = 12 + k.length + v.length ∧ ts < 4294967296 ∧
      12 + k.length + v.length < 4294967296

/-- Engine states reached from `open` of a store that does not exist yet by `set` and
`delete` calls alone, while the log stays shorter than `2 ^ 32` bytes. -/
inductive WriteOnly : database → Prop
  | fresh : WriteOnly freshDB
  | set (d : database) (now : Int) (k v : Bytes) : WriteOnly d →
      d.offsetPosition + (12 + k.length + v.length) < 4294967296 → WriteOnly (d.set now k v)
  | delete (d : database) (now : Int) (k : Bytes) : WriteOnly d →
      (k ∈ d.keyMap → d.offsetPosition + (12 + k.length + deleted.length) < 4294967296) →
      WriteOnly (d.delete now k).1

/-- A value of `2 ^ 32` zero bytes: its length does not fit a 32-bit length field. -/
def hugeValue : Bytes := List.replicate 4294967296 0

/-- A store whose log file holds the record of `set("a","1")` and whose snapshot file
is missing. -/
def logWithoutSnapshot : Disk :=
  { log := some (encodeKV 0 keyA val1).1, snapshot := none }

/-! ## Call sequences -/

/-- A mutating call of the engine, with the wall-clock time at which it runs. -/
inductive Op where
  | set (now : Int) (key value : Bytes)
  | delete (now : Int) (key : Bytes)

/-- The engine state after one mutating call (the error of `delete` is dropped). -/
def database.apply (d : database) : Op → database
  | Op.set now key value => d.set now key value
  | Op.delete now key => (d.delete now key).1

/-- The engine state after a sequence of mutating calls, in call order. -/
def database.run (d : database) (ops : List Op) : database :=
  ops.foldl database.apply d

/-- Specification side of a call sequence: the concatenation of the records written
so far, and for each key the value of the last record written for it (`none` for a
key that has no record). -/
structure Trace where
  log : Bytes
  last : Bytes → Option Bytes

/-- Specification side of one call: a `set` writes its record and makes its value the
last one of the key; a `delete` succeeds when the key has a record, and then writes a
record with the text `"deleted"`, which becomes the last value of the key; a `delete`
of a key without a record writes nothing. -/
def Trace.step (t : Trace) : Op → Trace
  | Op.set now key value =>
    { log := t.log ++ (encodeKV (uint32OfInt64 now) key value).1
      last := fun k => if k = key then some value else t.last k }
  | Op.delete now key =>
    match t.last key with
    | none => t
    | some _ =>
      { log := t.log ++ (encodeKV (uint32OfInt64 now) key deleted).1
        last := fun k => if k = key then some deleted else t.last k }

/-- Specification side of a call sequence on a store that starts empty. -/
def Trace.of (ops : List Op) : Trace :=
  ops.foldl Trace.step { log := [], last := fun _ => none }

/-- The entry `e` is the position and size of a record of `log` that holds the key `k`
and the value `v`, with all of its fields within 32 bits. -/
def RecordAt (log : Bytes) (k v : Bytes) (e : keyDir) : Prop :=
  ∃ (pre post : Bytes) (ts : Nat),
    log = pre ++ (encodeKV ts k v).1 ++ post ∧ e.Position = pre.length ∧
      e.TotalSize = 12 + k.length + v.length ∧ ts < 4294967296 ∧
      12 + k.length + v.length < 4294967296

/-- The engine state `d` agrees with the specification side `t`: writes land at the
cursor, the log is the concatenation of the records, the index has exactly the keys
that have a record, and each entry is the place of the last record of its key. -/
def Refines (d : database) (t : Trace) : Prop :=
  d.Aligned ∧ d.file.contents = t.log ∧
    (∀ k, t.last k = none → d.keyMap.lookup k = none) ∧
    (∀ k v, t.last k = some v → ∃ e, d.keyMap.lookup k = some e ∧ RecordAt d.file.contents k v e)

/-- Specification side of the record layout: the timestamp field of the header of a
record, the little-endian `uint32` at bytes `0..4`. -/
def headerTimestamp (record : Bytes) : Option Nat :=
  (slice? record 0 4).bind getUint32

/-- A run of `2 ^ 30 - 13` zero bytes. -/
def capPrefix : Bytes := List.replicate 1073741811 0

/-- A value of `2 ^ 30 - 12` bytes, all zero except the last byte `x`: with a one-byte
key its record is `2 ^ 30 + 1` bytes long, one byte more than one `Read` transfers. -/
def capValue : Bytes := capPrefix ++ [120]

/-! ## Codec lemmas -/

theorem slice?_eq_some {data : Bytes} {lo hi : Nat} (h1 : lo ≤ hi) (h2 : hi ≤ data.length) :
    slice? data lo hi = some ((data.take hi).drop lo) := by
  simp [slice?, h1, h2]

theorem take_drop_middle {α : Type} (a b c : List α) :
    ((a ++ b ++ c).take (a.length + b.length)).drop a.length = b := by
  rw [List.take_left' (by simp), List.drop_left]

theorem slice?_middle (a b c : Bytes) :
    slice? (a ++ b ++ c) a.length (a.length + b.length) = some b := by
  rw [slice?_eq_some (by omega) (by simp), take_drop_middle]

theorem toNat_ofNat_byte (v : Nat) : (UInt8.ofNat v).toNat = v % 256 := rfl

theorem or_shiftLeft_eq_add (a b i : Nat) (h : a < 2 ^ i) : a ||| b <<< i = a + b * 2 ^ i := by
  rw [Nat.or_comm, Nat.shiftLeft_eq, Nat.mul_comm, ← Nat.mul_add_lt_is_or h, Nat.add_comm,
    Nat.mul_comm]

theorem getUint32_eq (b0 b1 b2 b3 : UInt8) (rest : Bytes) :
    getUint32 (b0 :: b1 :: b2 :: b3 :: rest)
      = some (b0.toNat + 256 * b1.toNat + 65536 * b2.toNat + 16777216 * b3.toNat) := by
  have h0 : b0.toNat < 256 := b0.toNat_lt
  have h1 : b1.toNat < 256 := b1.toNat_lt
  have h2 : b2.toNat < 256 := b2.toNat_lt
  have h3 : b3.toNat < 256 := b3.toNat_lt
  simp only [getUint32]
  rw [or_shiftLeft_eq_add b0.toNat b1.toNat 8 (by omega)]
  rw [or_shiftLeft_eq_add _ b2.toNat 16 (by omega)]
  rw [or_shiftLeft_eq_add _ b3.toNat 24 (by omega)]
  congr 1
  omega

theorem getUint32_putUint32 (v : Nat) (hv : v < 4294967296) (rest : Bytes) :
    getUint32 (putUint32 v ++ rest) = some v := by
  have e : putUint32 v ++ rest
      = UInt8.ofNat v :: UInt8.ofNat (v >>> 8) :: UInt8.ofNat (v >>> 16)
          :: UInt8.ofNat (v >>> 24) :: rest := rfl
  rw [e, getUint32_eq]
  simp only [toNat_ofNat_byte, Nat.shiftRight_eq_div_pow]
  congr 1
  omega

theorem putUint32_length (v : Nat) : (putUint32 v).length = 4 := rfl

theorem putUint32_isLittleEndian32 (v : Nat) (hv : v < 4294967296) :
    IsLittleEndian32 (putUint32 v) v := by
  refine ⟨_, _, _, _, rfl, ?_⟩
  simp only [toNat_ofNat_byte, Nat.shiftRight_eq_div_pow]
  omega

theorem encodeHeader_length (t k v : Nat) : (encodeHeader t k v).length = 12 := rfl

theorem decodeHeader_encodeHeader (t k v : Nat) (ht : t < 4294967296) (hk : k < 4294967296)
    (hv : v < 4294967296) : decodeHeader (encodeHeader t k v) = some (t, k, v) := by
  have e1 : slice? (encodeHeader t k v) 0 4 = some (putUint32 t ++ []) := by
    rw [slice?_eq_some (by omega) (by simp [encodeHeader_length])]; rfl
  have e2 : slice? (encodeHeader t k v) 4 8 = some (putUint32 k ++ []) := by
    rw [slice?_eq_some (by omega) (by simp [encodeHeader_length])]; rfl
  have e3 : slice? (encodeHeader t k v) 8 12 = some (putUint32 v ++ []) := by
    rw [slice?_eq_some (by omega) (by simp [encodeHeader_length])]; rfl
  simp only [decodeHeader, e1, e2, e3, Option.some_bind, getUint32_putUint32 _ ht,
    getUint32_putUint32 _ hk, getUint32_putUint32 _ hv, bind, pure]

theorem encodeKV_fst (ts : Nat) (key value : Bytes) :
    (encodeKV ts key value).1
      = encodeHeader ts (uint32 key.length) (uint32 value.length) ++ key ++ value := rfl

theorem encodeKV_snd (ts : Nat) (key value : Bytes) :
    (encodeKV ts key value).2 = 12 + key.length + value.length := by
  simp only [encodeKV, List.length_append, encodeHeader_length]

theorem encodeKV_length (ts : Nat) (key value : Bytes) :
    (encodeKV ts key value).1.length = 12 + key.length + value.length := by
  simp only [encodeKV, List.length_append, encodeHeader_length]

theorem decodeKV_encodeKV (ts : Nat) (key value : Bytes) (hts : ts < 4294967296)
    (hsz : 12 + key.length + value.length < 4294967296) :
    decodeKV (encodeKV ts key value).1 = some (ts, key, value) := by
  have hk : uint32 key.length = key.length := Nat.mod_eq_of_lt (by omega)
  have hv : uint32 value.length = value.length := Nat.mod_eq_of_lt (by omega)
  have hke : uint32 (headerSize + key.length) = 12 + key.length :=
    Nat.mod_eq_of_lt (by simp only [headerSize]; omega)
  have hve : uint32 (12 + key.length + value.length) = 12 + key.length + value.length :=
    Nat.mod_eq_of_lt (by omega)
  have e0 : slice? (encodeKV ts key value).1 0 headerSize
      = some (encodeHeader ts key.length value.length) := by
    have := slice?_middle [] (encodeHeader ts key.length value.length) (key ++ value)
    simpa [encodeKV_fst, hk, hv, headerSize, encodeHeader_length] using this
  have e1 : slice? (encodeKV ts key value).1 headerSize (12 + key.length) = some key := by
    have := slice?_middle (encodeHeader ts key.length value.length) key value
    simpa [encodeKV_fst, hk, hv, headerSize, encodeHeader_length] using this
  have e2 : slice? (encodeKV ts key value).1 (12 + key.length) (12 + key.length + value.length)
      = some value := by
    have := slice?_middle (encodeHeader ts key.length value.length ++ key) value []
    simpa [encodeKV_fst, hk, hv, encodeHeader_length] using this
  simp only [decodeKV, e0, Option.some_bind, decodeHeader_encodeHeader ts _ _ hts
    (by omega : key.length < 4294967296) (by omega : value.length < 4294967296), hke, hve, e1, e2,
    bind, pure]

/-! ## File and engine lemmas -/

theorem uint32_of_lt {n : Nat} (h : n < 4294967296) : uint32 n = n := Nat.mod_eq_of_lt h

theorem uint32OfInt64_lt (t : Int) : uint32OfInt64 t < 4294967296 := by
  unfold uint32OfInt64; omega

theorem File.Write_contents_of_atEnd (f : File) (b : Bytes)
    (h : f.append = true ∨ f.offset = f.contents.length) :
    (f.Write b).contents = f.contents ++ b := by
  unfold File.Write
  by_cases hb : b = []
  · simp [hb]
  · by_cases ha : f.append = true
    · simp [hb, ha]
    · rcases h with h | h
      · exact absurd h ha
      · simp [hb, ha, h]

theorem File.Write_atEnd (f : File) (b : Bytes)
    (h : f.append = true ∨ f.offset = f.contents.length) :
    (f.Write b).append = true ∨ (f.Write b).offset = (f.Write b).contents.length := by
  unfold File.Write
  by_cases hb : b = []
  · simpa [hb] using h
  · by_cases ha : f.append = true
    · simp [hb, ha]
    · rcases h with h | h
      · exact absurd h ha
      · simp [hb, ha, h]

theorem File.Read_middle (f : File) (pre r post : Bytes) (h : f.contents = pre ++ r ++ post)
    (hr : r.length ≤ maxRW) : ((f.Seek pre.length).Read r.length).1 = r := by
  simp [File.Read, File.Seek, h, List.append_assoc, Nat.min_eq_left hr]

theorem File.Read_capped (f : File) (pre a tail post : Bytes)
    (h : f.contents = pre ++ (a ++ tail) ++ post) (ha : a.length = maxRW) :
    ((f.Seek pre.length).Read (a.length + tail.length)).1
      = a ++ List.replicate tail.length 0 := by
  have hmin : min (a.length + tail.length) maxRW = a.length := by omega
  simp [File.Read, File.Seek, h, List.append_assoc, hmin]

theorem database.set_offsetPosition (d : database) (now : Int) (k v : Bytes) :
    (d.set now k v).offsetPosition = d.offsetPosition + (12 + k.length + v.length) := by
  simp only [database.set, encodeKV_snd]

theorem database.set_lookup (d : database) (now : Int) (k v : Bytes) :
    (d.set now k v).keyMap.lookup k
      = some (newKeyDir (uint32OfInt64 now) (uint32 d.offsetPosition)
          (uint32 (12 + k.length + v.length))) := by
  simp only [database.set, encodeKV_snd, AList.lookup_insert]

theorem database.set_lookup_ne (d : database) (now : Int) (k v k' : Bytes) (h : k' ≠ k) :
    (d.set now k v).keyMap.lookup k' = d.keyMap.lookup k' := by
  simp only [database.set, AList.lookup_insert_ne h]

theorem database.set_contents_of_aligned (d : database) (now : Int) (k v : Bytes)
    (h : d.Aligned) :
    (d.set now k v).file.contents = d.file.contents ++ (encodeKV (uint32OfInt64 now) k v).1 := by
  simp only [database.set]
  exact File.Write_contents_of_atEnd _ _ h.2

theorem database.set_aligned (d : database) (now : Int) (k v : Bytes) (h : d.Aligned) :
    (d.set now k v).Aligned := by
  refine ⟨?_, ?_⟩
  · rw [database.set_offsetPosition, database.set_contents_of_aligned d now k v h,
      List.length_append, encodeKV_length, h.1]
  · simp only [database.set]
    exact File.Write_atEnd _ _ h.2

theorem database.delete_of_mem (d : database) (now : Int) (k : Bytes) (h : k ∈ d.keyMap) :
    d.delete now k = (d.set now k deleted, none) := by
  obtain ⟨e, he⟩ := Option.isSome_iff_exists.mp (AList.lookup_isSome.mpr h)
  simp only [database.delete, he, database.set]

theorem database.delete_of_not_mem (d : database) (now : Int) (k : Bytes) (h : k ∉ d.keyMap) :
    d.delete now k = (d, some keyNotFound) := by
  simp only [database.delete, AList.lookup_eq_none.mpr h]

theorem database.mem_set (d : database) (now : Int) (k v : Bytes) :
    k ∈ (d.set now k v).keyMap := by
  simp only [database.set, AList.mem_insert, true_or]

theorem database.get_of_record (d : database) (k : Bytes) (e : keyDir) (pre post : Bytes)
    (ts : Nat) (k' v : Bytes) (he : d.keyMap.lookup k = some e)
    (hc : d.file.contents = pre ++ (encodeKV ts k' v).1 ++ post)
    (hp : e.Position = pre.length) (hs : e.TotalSize = 12 + k'.length + v.length)
    (hts : ts < 4294967296) (hsz : 12 + k'.length + v.length ≤ 1073741824) :
    (d.get k).map Prod.fst = some v := by
  have hr := File.Read_middle d.file pre (encodeKV ts k' v).1 post hc
    (by rw [encodeKV_length]; exact hsz)
  rw [encodeKV_length] at hr
  simp only [database.get, he, hp, hs]
  rw [show (d.file.Seek pre.length).Read (12 + k'.length + v.length)
      = (((d.file.Seek pre.length).Read (12 + k'.length + v.length)).1,
         ((d.file.Seek pre.length).Read (12 + k'.length + v.length)).2) from rfl]
  simp only [hr, decodeKV_encodeKV ts k' v hts (by omega), Option.map_some']

theorem database.get_eq_none_of_decode (d : database) (k : Bytes) (e : keyDir)
    (he : d.keyMap.lookup k = some e)
    (hd : decodeKV ((d.file.Seek e.Position).Read e.TotalSize).1 = none) :
    d.get k = none := by
  simp only [database.get, he]
  rw [show (d.file.Seek e.Position).Read e.TotalSize
      = (((d.file.Seek e.Position).Read e.TotalSize).1,
         ((d.file.Seek e.Position).Read e.TotalSize).2) from rfl]
  simp only [hd]

theorem database.get_set_of_aligned (d : database) (now : Int) (k v : Bytes) (h : d.Aligned)
    (hc : d.offsetPosition < 4294967296) (hsz : 12 + k.length + v.length ≤ 1073741824) :
    ((d.set now k v).get k).map Prod.fst = some v := by
  apply database.get_of_record (d.set now k v) k _ d.file.contents [] (uint32OfInt64 now) k v
    (database.set_lookup d now k v)
  · rw [database.set_contents_of_aligned d now k v h, List.append_nil]
  · simp only [newKeyDir, uint32_of_lt hc]
    exact h.1
  · simp only [newKeyDir, uint32_of_lt (show 12 + k.length + v.length < 4294967296 by omega)]
  · exact uint32OfInt64_lt now
  · exact hsz

theorem encodeKV_snoc (ts : Nat) (k p : Bytes) (b : UInt8) :
    (encodeKV ts k (p ++ [b])).1
      = (encodeHeader ts (uint32 k.length) (uint32 (p.length + 1)) ++ k ++ p) ++ [b] := by
  simp only [encodeKV_fst, List.length_append, List.length_singleton, List.append_assoc]

theorem database.get_of_capped_record (d : database) (k : Bytes) (e : keyDir)
    (pre post : Bytes) (ts : Nat) (k' p : Bytes) (b : UInt8)
    (he : d.keyMap.lookup k = some e)
    (hc : d.file.contents = pre ++ (encodeKV ts k' (p ++ [b])).1 ++ post)
    (hp : e.Position = pre.length) (hs : e.TotalSize = 12 + k'.length + (p.length + 1))
    (hts : ts < 4294967296) (hcap : 12 + k'.length + p.length = 1073741824) :
    (d.get k).map Prod.fst = some (p ++ [0]) := by
  have ha : (encodeHeader ts (uint32 k'.length) (uint32 (p.length + 1)) ++ k' ++ p).length
      = maxRW := by
    simp only [List.length_append, encodeHeader_length, maxRW]
    exact hcap
  rw [encodeKV_snoc] at hc
  have hr := File.Read_capped d.file pre _ [b] post hc ha
  rw [ha, List.length_singleton, show List.replicate 1 (0 : UInt8) = [0] from rfl,
    ← encodeKV_snoc] at hr
  have hn : 12 + k'.length + (p.length + 1) = maxRW + 1 := by
    simp only [maxRW]; omega
  have hd : decodeKV (encodeKV ts k' (p ++ [0])).1 = some (ts, k', p ++ [0]) :=
    decodeKV_encodeKV ts k' (p ++ [0]) hts
      (by simp only [List.length_append, List.length_singleton]; omega)
  simp only [database.get, he, hp, hs, hn]
  rw [show (d.file.Seek pre.length).Read (maxRW + 1)
      = (((d.file.Seek pre.length).Read (maxRW + 1)).1,
         ((d.file.Seek pre.length).Read (maxRW + 1)).2) from rfl]
  simp only [hr, hd, Option.map_some']

theorem database.get_set_truncated (d : database) (now : Int) (k p : Bytes) (b : UInt8)
    (h : d.Aligned) (hc : d.offsetPosition < 4294967296)
    (hcap : 12 + k.length + p.length = 1073741824) :
    ((d.set now k (p ++ [b])).get k).map Prod.fst = some (p ++ [0]) := by
  apply database.get_of_capped_record (d.set now k (p ++ [b])) k _ d.file.contents []
    (uint32OfInt64 now) k p b (database.set_lookup d now k (p ++ [b]))
  · rw [database.set_contents_of_aligned d now k (p ++ [b]) h, List.append_nil]
  · simp only [newKeyDir, uint32_of_lt hc]
    exact h.1
  · simp only [newKeyDir, List.length_append, List.length_singleton]
    exact uint32_of_lt (by omega)
  · exact uint32OfInt64_lt now
  · exact hcap

theorem capPrefix_length : capPrefix.length = 1073741811 := by
  unfold capPrefix
  exact List.length_replicate _ _

theorem capValue_length : capValue.length = 1073741812 := by
  unfold capValue
  rw [List.length_append, capPrefix_length]
  rfl

theorem capValue_ne_zeroed : capPrefix ++ [0] ≠ capValue := by
  intro h
  unfold capValue at h
  exact absurd (List.append_cancel_left h) (by decide)

theorem capRecord_size : 12 + keyA.length + capPrefix.length = 1073741824 := by
  rw [capPrefix_length]
  rfl

theorem freshDB_aligned : freshDB.Aligned := ⟨rfl, Or.inr rfl⟩

theorem capStore_get :
    ((freshDB.set 0 keyA capValue).get keyA).map Prod.fst = some (capPrefix ++ [0]) :=
  database.get_set_truncated freshDB 0 keyA capPrefix 120 ⟨rfl, Or.inr rfl⟩ (by decide)
    capRecord_size

theorem openStore_noStore : openStore noStore = some freshDB := rfl

theorem database.get_fst_congr (d d' : database) (k : Bytes) (hm : d.keyMap = d'.keyMap)
    (hc : d.file.contents = d'.file.contents) :
    (d.get k).map Prod.fst = (d'.get k).map Prod.fst := by
  have hread : ∀ p n, ((d.file.Seek p).Read n).1 = ((d'.file.Seek p).Read n).1 := by
    intro p n
    simp only [File.Read, File.Seek, hc]
  simp only [database.get, hm]
  cases d'.keyMap.lookup k with
  | none => rfl
  | some e =>
    simp only
    rw [show (d.file.Seek e.Position).Read e.TotalSize
        = (((d.file.Seek e.Position).Read e.TotalSize).1,
           ((d.file.Seek e.Position).Read e.TotalSize).2) from rfl,
      show (d'.file.Seek e.Position).Read e.TotalSize
        = (((d'.file.Seek e.Position).Read e.TotalSize).1,
           ((d'.file.Seek e.Position).Read e.TotalSize).2) from rfl]
    simp only [hread]
    cases decodeKV ((d'.file.Seek e.Position).Read e.TotalSize).1 with
    | none => rfl
    | some r => rfl

theorem PointsAt.validEntry {log k : Bytes} {e : keyDir} (h : PointsAt log k e) :
    ValidEntry log k e := by
  obtain ⟨pre, post, ts, v, hlog, hp, hs, hts, hsz⟩ := h
  have hlen := encodeKV_length ts k v
  refine ⟨?_, ts, v, ?_, by rw [hlen, hs]⟩
  · rw [hlog, hp, hs]
    simp only [List.length_append, hlen]
    omega
  · rw [hp, hs, ← hlen, hlog, slice?_middle, Option.some_bind]
    exact decodeKV_encodeKV ts k v hts hsz

theorem PointsAt.append {log k : Bytes} {e : keyDir} (h : PointsAt log k e) (more : Bytes) :
    PointsAt (log ++ more) k e := by
  obtain ⟨pre, post, ts, v, hlog, hp, hs, hts, hsz⟩ := h
  exact ⟨pre, post ++ more, ts, v, by rw [hlog, List.append_assoc], hp, hs, hts, hsz⟩

theorem database.set_pointsAt (d : database) (now : Int) (k v : Bytes) (hA : d.Aligned)
    (hI : ∀ k' e, d.keyMap.lookup k' = some e → PointsAt d.file.contents k' e)
    (hb : d.offsetPosition + (12 + k.length + v.length) < 4294967296) :
    ∀ k' e, (d.set now k v).keyMap.lookup k' = some e →
      PointsAt (d.set now k v).file.contents k' e := by
  intro k' e he
  rw [database.set_contents_of_aligned d now k v hA]
  by_cases hk : k' = k
  · subst hk
    rw [database.set_lookup, uint32_of_lt (by omega), uint32_of_lt (by omega)] at he
    cases he
    exact ⟨d.file.contents, [], uint32OfInt64 now, v, by rw [List.append_nil], hA.1, rfl,
      uint32OfInt64_lt now, by omega⟩
  · rw [database.set_lookup_ne d now k v k' hk] at he
    exact (hI k' e he).append _

/-- The invariant of the write-only states: the engine is aligned and every index
entry points at a record that was appended for its key. -/
theorem WriteOnly.invariant {d : database} (h : WriteOnly d) :
    d.Aligned ∧ ∀ k e, d.keyMap.lookup k = some e → PointsAt d.file.contents k e := by
  induction h with
  | fresh =>
    refine ⟨freshDB_aligned, ?_⟩
    intro k e he
    simp [freshDB] at he
  | set d now k v _ hb ih =>
    exact ⟨database.set_aligned d now k v ih.1, database.set_pointsAt d now k v ih.1 ih.2 hb⟩
  | delete d now k _ hb ih =>
    by_cases hm : k ∈ d.keyMap
    · rw [database.delete_of_mem d now k hm]
      exact ⟨database.set_aligned d now k deleted ih.1,
        database.set_pointsAt d now k deleted ih.1 ih.2 (hb hm)⟩
    · rw [database.delete_of_not_mem d now k hm]
      exact ih

theorem count_eq_one_of_nodup {α : Type} [BEq α] [LawfulBEq α] {a : α} :
    ∀ {l : List α}, l.Nodup → a ∈ l → l.count a = 1 := by
  intro l
  induction l with
  | nil => intro _ h; cases h
  | cons x xs ih =>
    intro hn hm
    rw [List.nodup_cons] at hn
    by_cases hx : a = x
    · subst hx
      simp [List.count_cons, List.count_eq_zero_of_not_mem hn.1]
    · have hxs : a ∈ xs := by simpa [hx] using hm
      have hxa : (x == a) = false := by simpa using Ne.symm hx
      simp [List.count_cons, ih hn.2 hxs, hxa]

theorem slice?_zero_zero (data : Bytes) : slice? data 0 0 = some [] := by
  simp [slice?]

theorem openStore_close (d : database) :
    openStore d.close
      = some { file := { contents := d.file.contents, offset := 0, append := true },
               offsetPosition := 0, keyMap := d.keyMap } := rfl

theorem database.get_after_reopen (d : database) (k : Bytes) :
    ((openStore d.close).bind fun d' => d'.get k).map Prod.fst = (d.get k).map Prod.fst := by
  rw [openStore_close, Option.some_bind]
  exact database.get_fst_congr _ _ k rfl rfl

/-! ## A log of `2 ^ 32` bytes -/

theorem bigValue_length : bigValue.length = 4294967283 := by
  unfold bigValue
  exact List.length_replicate _ _

theorem bigRecord_eq :
    (encodeKV 0 keyA bigValue).1
      = [0, 0, 0, 0, 1, 0, 0, 0, 243, 255, 255, 255, 97, 0] ++ List.replicate 4294967282 0 := by
  have h1 : encodeHeader 0 (uint32 keyA.length) (uint32 4294967283)
      = [0, 0, 0, 0, 1, 0, 0, 0, 243, 255, 255, 255] := by decide
  have h2 : bigValue = 0 :: List.replicate 4294967282 0 := by
    unfold bigValue
    exact List.replicate_succ 0 4294967282
  have h3 : ∀ r : Bytes,
      [0, 0, 0, 0, 1, 0, 0, 0, 243, 255, 255, 255] ++ keyA ++ (0 :: r)
        = [0, 0, 0, 0, 1, 0, 0, 0, 243, 255, 255, 255, 97, 0] ++ r := fun _ => rfl
  rw [encodeKV_fst, bigValue_length, h1, h2]
  exact h3 _

theorem bigStore_aligned : (freshDB.set 0 keyA bigValue).Aligned :=
  database.set_aligned freshDB 0 keyA bigValue freshDB_aligned

theorem bigStore_offsetPosition : (freshDB.set 0 keyA bigValue).offsetPosition = 4294967296 := by
  rw [database.set_offsetPosition, bigValue_length]
  rfl

/-! ## Record codec: claims -/

/-- C2: `decodeKV` inverts `encodeKV`. For every `uint32` timestamp and all strings
`key`, `value` with `12 + len(key) + len(value) < 2 ^ 32`, decoding the buffer that
`encodeKV` returns gives back the timestamp, the key and the value. -/
theorem decodeKV_inverts_encodeKV (ts : Nat) (key value : Bytes) (hts : ts < 2 ^ 32)
    (hsz : 12 + key.length + value.length < 2 ^ 32) :
    decodeKV (encodeKV ts key value).1 = some (ts, key, value) :=
  decodeKV_encodeKV ts key value hts hsz

theorem decodeKV_inverts_encodeKV_witness :
    decodeKV (encodeKV 7 keyA val1).1 = some (7, keyA, val1) :=
  decodeKV_inverts_encodeKV 7 keyA val1 (by norm_num) (by decide)

/-- C8: record layout. For a `uint32` timestamp and strings with lengths below
`2 ^ 32`, the buffer of `encodeKV` is the little-endian timestamp, the little-endian
key length, the little-endian value length (four bytes each), the key bytes and the
value bytes, and nothing else; its length, which is the integer that `encodeKV`
returns, is `12 + len(key) + len(value)`. -/
theorem encodeKV_layout (ts : Nat) (key value : Bytes) (hts : ts < 2 ^ 32)
    (hk : key.length < 2 ^ 32) (hv : value.length < 2 ^ 32) :
    ∃ tsBytes keySizeBytes valueSizeBytes : Bytes,
      IsLittleEndian32 tsBytes ts ∧ IsLittleEndian32 keySizeBytes key.length ∧
      IsLittleEndian32 valueSizeBytes value.length ∧
      (encodeKV ts key value).1 = tsBytes ++ keySizeBytes ++ valueSizeBytes ++ key ++ value ∧
      (encodeKV ts key value).1.length = 12 + key.length + value.length ∧
      (encodeKV ts key value).2 = 12 + key.length + value.length := by
  refine ⟨putUint32 ts, putUint32 key.length, putUint32 value.length,
    putUint32_isLittleEndian32 ts hts, putUint32_isLittleEndian32 _ hk,
    putUint32_isLittleEndian32 _ hv, ?_, encodeKV_length ts key value,
    encodeKV_snd ts key value⟩
  rw [encodeKV_fst, uint32_of_lt hk, uint32_of_lt hv]
  rfl

theorem encodeKV_layout_witness :
    ∃ tsBytes keySizeBytes valueSizeBytes : Bytes,
      IsLittleEndian32 tsBytes 7 ∧ IsLittleEndian32 keySizeBytes keyA.length ∧
      IsLittleEndian32 valueSizeBytes val1.length ∧
      (encodeKV 7 keyA val1).1 = tsBytes ++ keySizeBytes ++ valueSizeBytes ++ keyA ++ val1 ∧
      (encodeKV 7 keyA val1).1.length = 12 + keyA.length + val1.length ∧
      (encodeKV 7 keyA val1).2 = 12 + keyA.length + val1.length :=
  encodeKV_layout 7 keyA val1 (by norm_num) (by decide) (by decide)

/-! ## Engine: claims that hold in every state -/

/-- C9: in every engine state with write cursor `c < 2 ^ 32`, a `set(k, v)` whose
record size `12 + len(k) + len(v)` fits in 32 bits leaves the cursor at `c` plus that
size and records for `k` the entry with position `c` and that total size; a `delete(k)`
of an indexed key whose tombstone record fits in 32 bits succeeds and does the same
with the size `12 + len(k) + len("deleted")`. -/
theorem set_delete_advance_cursor (d : database) (now : Int) (k v : Bytes)
    (hc : d.offsetPosition < 2 ^ 32) :
    (12 + k.length + v.length < 2 ^ 32 →
      (d.set now k v).offsetPosition = d.offsetPosition + (12 + k.length + v.length) ∧
      (d.set now k v).keyMap.lookup k
        = some { Timestamp := uint32OfInt64 now, Position := d.offsetPosition,
                 TotalSize := 12 + k.length + v.length }) ∧
    (k ∈ d.keyMap → 12 + k.length + deleted.length < 2 ^ 32 →
      (d.delete now k).2 = none ∧
      (d.delete now k).1.offsetPosition
        = d.offsetPosition + (12 + k.length + deleted.length) ∧
      (d.delete now k).1.keyMap.lookup k
        = some { Timestamp := uint32OfInt64 now, Position := d.offsetPosition,
                 TotalSize := 12 + k.length + deleted.length }) := by
  constructor
  · intro hs
    rw [database.set_offsetPosition, database.set_lookup, uint32_of_lt hc, uint32_of_lt hs]
    exact ⟨rfl, rfl⟩
  · intro hm hs
    rw [database.delete_of_mem d now k hm]
    refine ⟨rfl, database.set_offsetPosition d now k deleted, ?_⟩
    show (d.set now k deleted).keyMap.lookup k = _
    rw [database.set_lookup, uint32_of_lt hc, uint32_of_lt hs]
    rfl

theorem set_delete_advance_cursor_witness :
    ((freshDB.set 5 keyA val1).set 9 keyB val2).offsetPosition = 14 + 14 ∧
    ((freshDB.set 5 keyA val1).set 9 keyB val2).keyMap.lookup keyB
      = some { Timestamp := 9, Position := 14, TotalSize := 14 } ∧
    ((freshDB.set 5 keyA val1).delete 9 keyA).2 = none ∧
    ((freshDB.set 5 keyA val1).delete 9 keyA).1.offsetPosition = 14 + 20 ∧
    ((freshDB.set 5 keyA val1).delete 9 keyA).1.keyMap.lookup keyA
      = some { Timestamp := 9, Position := 14, TotalSize := 20 } :=
  ⟨((set_delete_advance_cursor (freshDB.set 5 keyA val1) 9 keyB val2 (by decide)).1
      (by decide)).1,
   ((set_delete_advance_cursor (freshDB.set 5 keyA val1) 9 keyB val2 (by decide)).1
      (by decide)).2,
   (set_delete_advance_cursor (freshDB.set 5 keyA val1) 9 keyA val1 (by decide)).2
      (by decide) (by decide)⟩

/-- C10: `delete(k)` for a key that is not in the index returns the key-not-found
error and leaves the whole engine state as it was (index, write cursor, log contents
and file offset: nothing is appended); for a key that is in the index it returns no
error. -/
theorem delete_absent_key (d : database) (now : Int) (k : Bytes) :
    (k ∉ d.keyMap → d.delete now k = (d, some keyNotFound)) ∧
    (k ∈ d.keyMap → (d.delete now k).2 = none) := by
  constructor
  · exact database.delete_of_not_mem d now k
  · intro hm
    rw [database.delete_of_mem d now k hm]

theorem delete_absent_key_witness :
    (freshDB.set 5 keyA val1).delete 9 keyB = (freshDB.set 5 keyA val1, some keyNotFound) ∧
    ((freshDB.set 5 keyA val1).delete 9 keyA).2 = none :=
  ⟨(delete_absent_key (freshDB.set 5 keyA val1) 9 keyB).1 (by decide),
   (delete_absent_key (freshDB.set 5 keyA val1) 9 keyA).2 (by decide)⟩

/-! ## Engine: where the code leaves the cursor and the log out of step -/

/-- C6 (the code breaks it): after a first session `open; set("a","1"); close`, the
engine that `open` returns for the store has the write cursor 0 while the log file
is 14 bytes long, because `open` never assigns `offsetPosition`. -/
theorem reopened_cursor_is_not_log_length :
    reopened.map (fun d => (d.offsetPosition, d.file.contents.length)) = some (0, 14) := by
  decide

/-- C7 (the code breaks it): on a fresh store, after `set("a","1"); set("b","2");
get("a")` the log holds the records of `a` and `b`; a following `set("c","3")` leaves a
log of the same length that holds the records of `a` and `c`: the record of `b` is
overwritten, because the file is not opened with `O_APPEND` and `get` has moved the
file offset. -/
theorem set_after_get_overwrites_record :
    interleaved.map (fun d => d.file.contents)
      = some ((encodeKV 0 keyA val1).1 ++ (encodeKV 0 keyB val2).1) ∧
    interleaved.map (fun d => (d.set 0 keyC val3).file.contents)
      = some ((encodeKV 0 keyA val1).1 ++ (encodeKV 0 keyC val3).1) := by
  decide

/-! ## Engine: round trip, last write wins, delete, index validity -/

/-- C1 (fails as stated): on a fresh store, after `set("a", v)` with a value of
`2 ^ 32 - 13` bytes the write cursor is `2 ^ 32`; a following `set("b","2")` stores
the position `uint32(2 ^ 32) = 0`, and `get("b")` reads the first 14 bytes of the
record of `a` and panics in `decodeKV` instead of returning `"2"`. And on a fresh store,
after `set("a", v)` with the value `v` of `2 ^ 30 - 12` bytes that ends in `x` (a record
of `2 ^ 30 + 1` bytes), `get("a")` returns `v` with its last byte zeroed: the one `Read`
of `get` transfers `2 ^ 30` bytes. -/
theorem set_get_fails_past_4GiB :
    ((freshDB.set 0 keyA bigValue).set 0 keyB val2).get keyB = none ∧
    ((freshDB.set 0 keyA capValue).get keyA).map Prod.fst = some (capPrefix ++ [0]) ∧
    capPrefix ++ [0] ≠ capValue := by
  refine ⟨?_, database.get_set_truncated freshDB 0 keyA capPrefix 120 freshDB_aligned
    (by decide) capRecord_size, capValue_ne_zeroed⟩
  have hc : ((freshDB.set 0 keyA bigValue).set 0 keyB val2).file.contents
      = [] ++ [0, 0, 0, 0, 1, 0, 0, 0, 243, 255, 255, 255, 97, 0]
          ++ (List.replicate 4294967282 0 ++ (encodeKV 0 keyB val2).1) := by
    rw [database.set_contents_of_aligned _ _ _ _ bigStore_aligned,
      database.set_contents_of_aligned _ _ _ _ freshDB_aligned,
      show uint32OfInt64 0 = 0 from rfl, bigRecord_eq]
    simp only [freshDB, List.nil_append, List.append_assoc]
  have hl : ((freshDB.set 0 keyA bigValue).set 0 keyB val2).keyMap.lookup keyB
      = some { Timestamp := 0, Position := 0, TotalSize := 14 } := by
    rw [database.set_lookup, bigStore_offsetPosition]
    rfl
  have hr : ((((freshDB.set 0 keyA bigValue).set 0 keyB val2).file.Seek 0).Read 14).1
      = [0, 0, 0, 0, 1, 0, 0, 0, 243, 255, 255, 255, 97, 0] :=
    File.Read_middle _ [] [0, 0, 0, 0, 1, 0, 0, 0, 243, 255, 255, 255, 97, 0] _ hc
      (by decide)
  have hd : decodeKV [0, 0, 0, 0, 1, 0, 0, 0, 243, 255, 255, 255, 97, 0] = none := by decide
  refine database.get_eq_none_of_decode _ keyB _ hl ?_
  show decodeKV ((((freshDB.set 0 keyA bigValue).set 0 keyB val2).file.Seek 0).Read 14).1 = none
  rw [hr]
  exact hd

/-- C1 (amended): in every engine state whose write cursor is the length of the log
file and whose next write lands at the end of the file, with the cursor below
`2 ^ 32` and a record of at most `2 ^ 30` bytes (`12 + len(k) + len(v) ≤ 2 ^ 30`, what one
`Read` transfers), `set(k, v)` followed by `get(k)` returns exactly `v`. -/
theorem set_then_get (d : database) (now : Int) (k v : Bytes) (hA : d.Aligned)
    (hc : d.offsetPosition < 2 ^ 32) (hsz : 12 + k.length + v.length ≤ 2 ^ 30) :
    ((d.set now k v).get k).map Prod.fst = some v :=
  database.get_set_of_aligned d now k v hA hc hsz

theorem set_then_get_witness :
    (((freshDB.set 3 keyA val1).set 4 keyB val2).get keyB).map Prod.fst = some val2 :=
  set_then_get (freshDB.set 3 keyA val1) 4 keyB val2
    (database.set_aligned freshDB 3 keyA val1 freshDB_aligned) (by decide) (by decide)

/-- C3 (fails as stated): from the fresh store that holds one record of `2 ^ 32`
bytes (write cursor `c = 2 ^ 32`), after `set("b","2"); set("b","3")` the index entry of
`b` has position 14, not `c + 12 + len(k) + len(v1) = 2 ^ 32 + 14`: the position is
stored as a `uint32`. And on a fresh store, after `set("a","1"); set("a", v2)` with the
value `v2` of `2 ^ 30 - 12` bytes that ends in `x` (a record of `2 ^ 30 + 1` bytes),
`get("a")` returns `v2` with its last byte zeroed, not `v2`. -/
theorem last_write_position_truncated :
    (((freshDB.set 0 keyA bigValue).set 0 keyB val2).set 0 keyB val3).keyMap.lookup keyB
      = some { Timestamp := 0, Position := 14, TotalSize := 14 } ∧
    (freshDB.set 0 keyA bigValue).offsetPosition + 12 + keyB.length + val2.length
      = 4294967310 ∧
    (((freshDB.set 0 keyA val1).set 0 keyA capValue).get keyA).map Prod.fst
      = some (capPrefix ++ [0]) ∧
    capPrefix ++ [0] ≠ capValue := by
  refine ⟨?_, ?_, database.get_set_truncated (freshDB.set 0 keyA val1) 0 keyA capPrefix 120
    (database.set_aligned freshDB 0 keyA val1 freshDB_aligned) (by decide) capRecord_size,
    capValue_ne_zeroed⟩
  · rw [database.set_lookup, database.set_offsetPosition, bigStore_offsetPosition]
    rfl
  · rw [bigStore_offsetPosition]
    rfl

/-- C3 (amended): in every engine state with write cursor `c` equal to the length of
the log file and the next write landing at the end of the file, for `k`, `v1`, `v2` with
`c + 12 + len(k) + len(v1) < 2 ^ 32` and `12 + len(k) + len(v2) ≤ 2 ^ 30` (what one `Read`
transfers): after
`set(k, v1); set(k, v2)` a `get(k)` returns `v2`; the index has exactly one entry for `k`;
that entry has position `c + 12 + len(k) + len(v1)` and total size
`12 + len(k) + len(v2)`; and the log is the old log, then the record of `v1`, then the
record of `v2`, so that position is the offset at which the record of `v2` starts. -/
theorem last_write_wins (d : database) (t1 t2 : Int) (k v1 v2 : Bytes) (hA : d.Aligned)
    (hpos : d.offsetPosition + (12 + k.length + v1.length) < 2 ^ 32)
    (hsz : 12 + k.length + v2.length ≤ 2 ^ 30) :
    (((d.set t1 k v1).set t2 k v2).get k).map Prod.fst = some v2 ∧
    ((d.set t1 k v1).set t2 k v2).keyMap.keys.count k = 1 ∧
    ((d.set t1 k v1).set t2 k v2).keyMap.lookup k
      = some { Timestamp := uint32OfInt64 t2,
               Position := d.offsetPosition + (12 + k.length + v1.length),
               TotalSize := 12 + k.length + v2.length } ∧
    ((d.set t1 k v1).set t2 k v2).file.contents
      = (d.file.contents ++ (encodeKV (uint32OfInt64 t1) k v1).1)
          ++ (encodeKV (uint32OfInt64 t2) k v2).1 ∧
    (d.file.contents ++ (encodeKV (uint32OfInt64 t1) k v1).1).length
      = d.offsetPosition + (12 + k.length + v1.length) := by
  have hA1 := database.set_aligned d t1 k v1 hA
  have hc1 : (d.set t1 k v1).offsetPosition < 4294967296 := by
    rw [database.set_offsetPosition]; omega
  refine ⟨database.get_set_of_aligned _ t2 k v2 hA1 hc1 hsz, ?_, ?_, ?_, ?_⟩
  · exact count_eq_one_of_nodup (AList.keys_nodup _)
      (AList.mem_keys.mp (database.mem_set _ t2 k v2))
  · rw [database.set_lookup, uint32_of_lt hc1,
      uint32_of_lt (show 12 + k.length + v2.length < 4294967296 by omega),
      database.set_offsetPosition]
    rfl
  · rw [database.set_contents_of_aligned _ t2 k v2 hA1,
      database.set_contents_of_aligned d t1 k v1 hA]
  · rw [List.length_append, encodeKV_length, hA.1]

theorem last_write_wins_witness :
    (((freshDB.set 3 keyA val1).set 4 keyA val2).get keyA).map Prod.fst = some val2 ∧
    ((freshDB.set 3 keyA val1).set 4 keyA val2).keyMap.keys.count keyA = 1 ∧
    ((freshDB.set 3 keyA val1).set 4 keyA val2).keyMap.lookup keyA
      = some { Timestamp := uint32OfInt64 4,
               Position := freshDB.offsetPosition + (12 + keyA.length + val1.length),
               TotalSize := 12 + keyA.length + val2.length } ∧
    ((freshDB.set 3 keyA val1).set 4 keyA val2).file.contents
      = (freshDB.file.contents ++ (encodeKV (uint32OfInt64 3) keyA val1).1)
          ++ (encodeKV (uint32OfInt64 4) keyA val2).1 ∧
    (freshDB.file.contents ++ (encodeKV (uint32OfInt64 3) keyA val1).1).length
      = freshDB.offsetPosition + (12 + keyA.length + val1.length) :=
  last_write_wins freshDB 3 4 keyA val1 val2 freshDB_aligned (by decide) (by decide)

/-- C4 (fails as stated): on a fresh store, after `set("a","1"); delete("a")` the call
`get("a")` returns the text `"deleted"`, also after `close` and `open`, while `get` of
a key that was never set returns the empty string. -/
theorem get_after_delete_is_not_notFound :
    ((openStore noStore).bind fun d =>
        ((d.set 0 keyA val1).delete 0 keyA).1.get keyA).map Prod.fst = some deleted ∧
    ((openStore noStore).bind fun d =>
        (openStore ((d.set 0 keyA val1).delete 0 keyA).1.close).bind fun d' =>
          d'.get keyA).map Prod.fst = some deleted ∧
    ((openStore noStore).bind fun d => d.get keyA).map Prod.fst = some [] := by
  decide

/-- C4 (amended): in every engine state whose write cursor `c` is the length of the
log file and whose next write lands at the end of the file, with
`c + 12 + len(k) + len(v) < 2 ^ 32` and `12 + len(k) + len("deleted") ≤ 2 ^ 30` (what one
`Read` transfers): after
`set(k, v); delete(k)` the delete has returned no error and `get(k)` returns the text
`"deleted"`; `get(k)` returns the same after a following `close()` and `open()` of the
store. -/
theorem get_after_set_delete (d : database) (t1 t2 : Int) (k v : Bytes) (hA : d.Aligned)
    (hpos : d.offsetPosition + (12 + k.length + v.length) < 2 ^ 32)
    (hsz : 12 + k.length + deleted.length ≤ 2 ^ 30) :
    ((d.set t1 k v).delete t2 k).2 = none ∧
    (((d.set t1 k v).delete t2 k).1.get k).map Prod.fst = some deleted ∧
    ((openStore ((d.set t1 k v).delete t2 k).1.close).bind fun d' =>
        d'.get k).map Prod.fst = some deleted := by
  have hA1 := database.set_aligned d t1 k v hA
  have hc1 : (d.set t1 k v).offsetPosition < 4294967296 := by
    rw [database.set_offsetPosition]; omega
  have hg := database.get_set_of_aligned (d.set t1 k v) t2 k deleted hA1 hc1 hsz
  rw [database.delete_of_mem _ t2 k (database.mem_set d t1 k v)]
  refine ⟨rfl, hg, ?_⟩
  rw [openStore_close, Option.some_bind, ← hg]
  exact database.get_fst_congr _ _ k rfl rfl

theorem get_after_set_delete_witness :
    ((freshDB.set 3 keyA val1).delete 4 keyA).2 = none ∧
    (((freshDB.set 3 keyA val1).delete 4 keyA).1.get keyA).map Prod.fst = some deleted ∧
    ((openStore ((freshDB.set 3 keyA val1).delete 4 keyA).1.close).bind fun d' =>
        d'.get keyA).map Prod.fst = some deleted :=
  get_after_set_delete freshDB 3 4 keyA val1 freshDB_aligned (by decide) (by decide)

/-- C5 (fails as stated): on a fresh store, after one `set("a", v)` whose record is
`2 ^ 32` bytes long, the index entry of `a` has position 0 and total size
`uint32(2 ^ 32) = 0`, and the empty byte range it names is not a record. -/
theorem oversized_record_entry_invalid :
    (freshDB.set 0 keyA bigValue).keyMap.lookup keyA
      = some { Timestamp := 0, Position := 0, TotalSize := 0 } ∧
    ¬ ValidEntry (freshDB.set 0 keyA bigValue).file.contents keyA
        { Timestamp := 0, Position := 0, TotalSize := 0 } := by
  constructor
  · rw [database.set_lookup, bigValue_length]
    rfl
  · rintro ⟨-, ts, v, h, -⟩
    have h' : (slice? (freshDB.set 0 keyA bigValue).file.contents 0 0).bind decodeKV
        = some (ts, keyA, v) := h
    rw [slice?_zero_zero, Option.some_bind, show decodeKV [] = none from rfl] at h'
    cases h'

/-- C5 (amended): in every engine state reached from `open` of a store that does not
exist yet by `set` and `delete` calls alone, while the log stays shorter than `2 ^ 32`
bytes, every key `k` of the index has an entry `(position, total_size)` such that the
log holds at least `position + total_size` bytes and the bytes in
`[position, position + total_size)` decode with `decodeKV` to a record whose key is `k`
and whose encoded length is `total_size`. -/
theorem write_only_index_valid (d : database) (h : WriteOnly d) (k : Bytes) (e : keyDir)
    (he : d.keyMap.lookup k = some e) : ValidEntry d.file.contents k e :=
  ((WriteOnly.invariant h).2 k e he).validEntry

theorem write_only_index_valid_witness :
    ValidEntry ((freshDB.set 3 keyA val1).delete 4 keyA).1.file.contents keyA
      { Timestamp := 4, Position := 14, TotalSize := 20 } :=
  write_only_index_valid _
    (WriteOnly.delete _ 4 keyA (WriteOnly.set _ 3 keyA val1 WriteOnly.fresh (by decide))
      (fun _ => by decide))
    keyA _ (by decide)

/-! ## Record codec: short buffers and oversized fields -/

theorem getUint32_lt {b : Bytes} {n : Nat} (h : getUint32 b = some n) : n < 4294967296 := by
  match b, h with
  | b0 :: b1 :: b2 :: b3 :: rest, h =>
    rw [getUint32_eq] at h
    have h0 : b0.toNat < 256 := b0.toNat_lt
    have h1 : b1.toNat < 256 := b1.toNat_lt
    have h2 : b2.toNat < 256 := b2.toNat_lt
    have h3 : b3.toNat < 256 := b3.toNat_lt
    cases h
    omega

theorem getUint32_isSome_of_length {b : Bytes} (h : 4 ≤ b.length) : ∃ n, getUint32 b = some n := by
  match b, h with
  | b0 :: b1 :: b2 :: b3 :: rest, _ => exact ⟨_, getUint32_eq b0 b1 b2 b3 rest⟩

theorem slice?_take (data : Bytes) (lo hi n : Nat) (hn : hi ≤ n) (hl : n ≤ data.length) :
    slice? (data.take n) lo hi = slice? data lo hi := by
  unfold slice?
  have e : (data.take n).length = n := by rw [List.length_take]; omega
  by_cases hlo : lo ≤ hi
  · rw [if_pos ⟨hlo, by omega⟩, if_pos ⟨hlo, by omega⟩, List.take_take, Nat.min_eq_left hn]
  · rw [if_neg (fun h => hlo h.1), if_neg (fun h => hlo h.1)]

theorem slice?_eq_none_of_lt {data : Bytes} {lo hi : Nat} (h : hi < lo ∨ data.length < hi) :
    slice? data lo hi = none := by
  unfold slice?
  rw [if_neg]
  omega

theorem decodeKV_eq_none_of_short (data : Bytes) (h : data.length < 12) :
    decodeKV data = none := by
  simp only [decodeKV, headerSize, slice?_eq_none_of_lt (Or.inr h : 12 < 0 ∨ data.length < 12),
    Option.none_bind, bind]

theorem decodeKV_eq_none_of_fields (data : Bytes) (keySize valueSize : Nat)
    (hk : (slice? data 4 8).bind getUint32 = some keySize)
    (hv : (slice? data 8 12).bind getUint32 = some valueSize)
    (h : data.length < 12 + keySize + valueSize) : decodeKV data = none := by
  by_cases hlen : data.length < 12
  · exact decodeKV_eq_none_of_short data hlen
  · have hl : 12 ≤ data.length := by omega
    have hks : keySize < 4294967296 := by
      cases hs : slice? data 4 8 with
      | none => rw [hs] at hk; cases hk
      | some b => rw [hs] at hk; exact getUint32_lt hk
    have hvs : valueSize < 4294967296 := by
      cases hs : slice? data 8 12 with
      | none => rw [hs] at hv; cases hv
      | some b => rw [hs] at hv; exact getUint32_lt hv
    obtain ⟨ts, hts⟩ : ∃ ts, (slice? (data.take 12) 0 4).bind getUint32 = some ts := by
      rw [slice?_take data 0 4 12 (by omega) hl, slice?_eq_some (by omega) (by omega),
        Option.some_bind]
      apply getUint32_isSome_of_length
      simp only [List.drop_zero, List.length_take]
      omega
    have hdr : (slice? data 0 12).bind decodeHeader = some (ts, keySize, valueSize) := by
      rw [slice?_eq_some (by omega) hl, Option.some_bind, List.drop_zero]
      simp only [decodeHeader, hts, slice?_take data 4 8 12 (by omega) hl,
        slice?_take data 8 12 12 (by omega) hl, hk, hv, bind, pure, Option.some_bind]
    simp only [decodeKV, headerSize, hdr, bind, Option.some_bind, uint32]
    by_cases h1 : 12 ≤ (12 + keySize) % 4294967296 ∧ (12 + keySize) % 4294967296 ≤ data.length
    · have h2 : slice? data ((12 + keySize) % 4294967296)
          (((12 + keySize) % 4294967296 + valueSize) % 4294967296) = none := by
        apply slice?_eq_none_of_lt
        omega
      rw [h2]
      cases slice? data 12 ((12 + keySize) % 4294967296) <;> rfl
    · have h2 : slice? data 12 ((12 + keySize) % 4294967296) = none := by
        apply slice?_eq_none_of_lt
        omega
      rw [h2]
      rfl

theorem hugeValue_length : hugeValue.length = 4294967296 := by
  unfold hugeValue
  exact List.length_replicate _ _

theorem encodeKV_value_inj (ts ts' : Nat) (k v v' : Bytes)
    (h : (encodeKV ts k v).1 = (encodeKV ts' k v').1) : v = v' := by
  rw [encodeKV_fst, encodeKV_fst] at h
  exact (List.append_inj h (by simp only [List.length_append, encodeHeader_length])).2

/-- C11 (fails as stated): `decodeKV` on the empty buffer, and on a 13-byte buffer whose
header announces a one-byte key and a one-byte value, ends in a run-time panic (slice
bounds out of range), which is the result `none` of the embedding; the function has no
error result. -/
theorem decodeKV_short_buffer_is_a_panic :
    decodeKV [] = none ∧
    decodeKV [0, 0, 0, 0, 1, 0, 0, 0, 1, 0, 0, 0, 97] = none := by
  decide

/-- C11 (amended): for every byte buffer (with capacity equal to its length) that is
shorter than 12 bytes, or shorter than `12 + key_size + value_size` where `key_size`
and `value_size` are the little-endian `uint32` values at bytes `4..8` and `8..12`,
`decodeKV` returns nothing: it panics on a slice expression that is out of bounds,
without reading bytes outside the buffer. -/
theorem decodeKV_short_buffer_panics (data : Bytes) :
    (data.length < 12 → decodeKV data = none) ∧
    (∀ keySize valueSize : Nat,
      (slice? data 4 8).bind getUint32 = some keySize →
      (slice? data 8 12).bind getUint32 = some valueSize →
      data.length < 12 + keySize + valueSize → decodeKV data = none) :=
  ⟨decodeKV_eq_none_of_short data, decodeKV_eq_none_of_fields data⟩

theorem decodeKV_short_buffer_panics_witness :
    decodeKV [0, 0, 0, 0, 1, 0, 0] = none ∧
    decodeKV [0, 0, 0, 0, 2, 0, 0, 0, 3, 0, 0, 0, 97, 98, 49, 50] = none :=
  ⟨(decodeKV_short_buffer_panics [0, 0, 0, 0, 1, 0, 0]).1 (by decide),
   (decodeKV_short_buffer_panics [0, 0, 0, 0, 2, 0, 0, 0, 3, 0, 0, 0, 97, 98, 49, 50]).2 2 3
     (by decide) (by decide) (by decide)⟩

/-- C12 (fails as stated): for the key `"a"` and a value of `2 ^ 32` bytes, `encodeKV`
returns a record of `2 ^ 32 + 13` bytes, and `set` on a fresh store is not rejected: it
advances the write cursor to `2 ^ 32 + 13` and indexes the key with total size
`uint32(2 ^ 32 + 13) = 13`. -/
theorem oversized_value_is_encoded_and_written :
    (encodeKV 0 keyA hugeValue).2 = 4294967309 ∧
    (encodeKV 0 keyA hugeValue).1.length = 4294967309 ∧
    (freshDB.set 0 keyA hugeValue).offsetPosition = 4294967309 ∧
    (freshDB.set 0 keyA hugeValue).keyMap.lookup keyA
      = some { Timestamp := 0, Position := 0, TotalSize := 13 } := by
  refine ⟨?_, ?_, ?_, ?_⟩
  · rw [encodeKV_snd, hugeValue_length]
    rfl
  · rw [encodeKV_length, hugeValue_length]
    rfl
  · rw [database.set_offsetPosition, hugeValue_length]
    rfl
  · rw [database.set_lookup, hugeValue_length]
    rfl

/-- C12 (amended): for every key or value whose byte length is `2 ^ 32` or more,
`encodeKV` returns no error: it returns a record of `12 + len(key) + len(value)` bytes
whose two length fields hold the lengths modulo `2 ^ 32` (so at least one of them is
not the length); and `set` with such a key or value is not rejected: it writes that
record, advances the write cursor by `12 + len(key) + len(value)` and indexes the key
with the cursor and the record size, each modulo `2 ^ 32`. -/
theorem oversized_set_is_not_rejected (d : database) (now : Int) (k v : Bytes)
    (h : 2 ^ 32 ≤ k.length ∨ 2 ^ 32 ≤ v.length) :
    (encodeKV (uint32OfInt64 now) k v).1
      = encodeHeader (uint32OfInt64 now) (k.length % 2 ^ 32) (v.length % 2 ^ 32) ++ k ++ v ∧
    (k.length % 2 ^ 32 ≠ k.length ∨ v.length % 2 ^ 32 ≠ v.length) ∧
    (encodeKV (uint32OfInt64 now) k v).2 = 12 + k.length + v.length ∧
    (d.set now k v).file = d.file.Write (encodeKV (uint32OfInt64 now) k v).1 ∧
    (d.set now k v).offsetPosition = d.offsetPosition + (12 + k.length + v.length) ∧
    (d.set now k v).keyMap.lookup k
      = some { Timestamp := uint32OfInt64 now, Position := d.offsetPosition % 2 ^ 32,
               TotalSize := (12 + k.length + v.length) % 2 ^ 32 } := by
  refine ⟨rfl, ?_, encodeKV_snd _ k v, rfl, database.set_offsetPosition d now k v,
    database.set_lookup d now k v⟩
  rcases h with h | h
  · left; omega
  · right; omega

theorem oversized_set_is_not_rejected_witness :
    (encodeKV (uint32OfInt64 0) keyA hugeValue).1
      = encodeHeader (uint32OfInt64 0) (keyA.length % 2 ^ 32) (hugeValue.length % 2 ^ 32)
          ++ keyA ++ hugeValue ∧
    (keyA.length % 2 ^ 32 ≠ keyA.length ∨ hugeValue.length % 2 ^ 32 ≠ hugeValue.length) ∧
    (encodeKV (uint32OfInt64 0) keyA hugeValue).2 = 12 + keyA.length + hugeValue.length ∧
    (freshDB.set 0 keyA hugeValue).file
      = freshDB.file.Write (encodeKV (uint32OfInt64 0) keyA hugeValue).1 ∧
    (freshDB.set 0 keyA hugeValue).offsetPosition
      = freshDB.offsetPosition + (12 + keyA.length + hugeValue.length) ∧
    (freshDB.set 0 keyA hugeValue).keyMap.lookup keyA
      = some { Timestamp := uint32OfInt64 0, Position := freshDB.offsetPosition % 2 ^ 32,
               TotalSize := (12 + keyA.length + hugeValue.length) % 2 ^ 32 } :=
  oversized_set_is_not_rejected freshDB 0 keyA hugeValue
    (Or.inr (by rw [hugeValue_length]; norm_num))

/-- C13 (fails as stated): on the store that holds `a`, `delete("a")` at time 5 leaves
exactly the engine state that `set("a", "deleted")` at time 5 leaves. -/
theorem delete_equals_set_deleted :
    ((freshDB.set 0 keyA val1).delete 5 keyA).1 = (freshDB.set 0 keyA val1).set 5 keyA deleted ∧
    keyA ∈ (freshDB.set 0 keyA val1).keyMap := by
  have hm : keyA ∈ (freshDB.set 0 keyA val1).keyMap := database.mem_set freshDB 0 keyA val1
  rw [database.delete_of_mem _ 5 keyA hm]
  exact ⟨rfl, hm⟩

/-- C13 (amended): for every key `k` present in the index and every timestamp,
`delete(k)` leaves the engine state that `set(k, "deleted")` leaves at the same
timestamp, and the record it appends is the record of `set(k, "deleted")`; the record
of `set(k, v)` at that timestamp is equal to it exactly when `v` is the text
`"deleted"`. -/
theorem tombstone_is_the_value_deleted (d : database) (now : Int) (k : Bytes)
    (hk : k ∈ d.keyMap) :
    (d.delete now k).1 = d.set now k deleted ∧
    (d.delete now k).1.file = d.file.Write (encodeKV (uint32OfInt64 now) k deleted).1 ∧
    ∀ v, (encodeKV (uint32OfInt64 now) k v).1 = (encodeKV (uint32OfInt64 now) k deleted).1
      ↔ v = deleted := by
  rw [database.delete_of_mem d now k hk]
  refine ⟨rfl, rfl, fun v => ⟨encodeKV_value_inj _ _ k v deleted, ?_⟩⟩
  rintro rfl
  rfl

theorem tombstone_is_the_value_deleted_witness :
    ((freshDB.set 0 keyA val1).delete 5 keyA).1 = (freshDB.set 0 keyA val1).set 5 keyA deleted ∧
    ((freshDB.set 0 keyA val1).delete 5 keyA).1.file
      = (freshDB.set 0 keyA val1).file.Write (encodeKV (uint32OfInt64 5) keyA deleted).1 ∧
    ∀ v, (encodeKV (uint32OfInt64 5) keyA v).1 = (encodeKV (uint32OfInt64 5) keyA deleted).1
      ↔ v = deleted :=
  tombstone_is_the_value_deleted (freshDB.set 0 keyA val1) 5 keyA (by decide)

/-! ## Engine: frame of `get`, persistence, deletion, timestamps -/

theorem database.get_frame (d d' : database) (k v : Bytes) (h : d.get k = some (v, d')) :
    d'.keyMap = d.keyMap ∧ d'.offsetPosition = d.offsetPosition ∧
      d'.file.contents = d.file.contents ∧ d'.file.append = d.file.append := by
  unfold database.get at h
  cases hl : d.keyMap.lookup k with
  | none =>
    rw [hl] at h
    cases h
    exact ⟨rfl, rfl, rfl, rfl⟩
  | some e =>
    rw [hl] at h
    simp only [File.Read, File.Seek] at h
    split at h
    · cases h
    · cases h
      exact ⟨rfl, rfl, rfl, rfl⟩

theorem headerTimestamp_encodeKV (ts : Nat) (k v : Bytes) (hts : ts < 4294967296) :
    headerTimestamp (encodeKV ts k v).1 = some ts := by
  have e : (encodeKV ts k v).1
      = [] ++ putUint32 ts
          ++ (putUint32 (uint32 k.length) ++ putUint32 (uint32 v.length) ++ k ++ v) := by
    simp only [encodeKV_fst, encodeHeader, List.nil_append, List.append_assoc]
  have hs := slice?_middle [] (putUint32 ts)
    (putUint32 (uint32 k.length) ++ putUint32 (uint32 v.length) ++ k ++ v)
  rw [← e] at hs
  have hs' : slice? (encodeKV ts k v).1 0 4 = some (putUint32 ts) := hs
  rw [headerTimestamp, hs', Option.some_bind]
  have := getUint32_putUint32 ts hts []
  rwa [List.append_nil] at this

theorem openStore_of_no_log (disk : Disk) (h : disk.log = none) :
    openStore disk = some freshDB := by
  simp only [openStore, h, freshDB]

/-- C14 (the code breaks it): on a fresh store after `set("a","1"); set("b","2")`, a
`set("c","3")` appends its record (the log holds the records of `a`, `b`, `c`); when
`get("a")` is called first, the same `set("c","3")` leaves a log that holds the records
of `a` and `c`. -/
theorem get_changes_the_following_set :
    (((freshDB.set 0 keyA val1).set 0 keyB val2).set 0 keyC val3).file.contents
      = (encodeKV 0 keyA val1).1 ++ (encodeKV 0 keyB val2).1 ++ (encodeKV 0 keyC val3).1 ∧
    ((((freshDB.set 0 keyA val1).set 0 keyB val2).get keyA).map fun r =>
        (r.2.set 0 keyC val3).file.contents)
      = some ((encodeKV 0 keyA val1).1 ++ (encodeKV 0 keyC val3).1) := by
  decide

/-- C15 (fails as stated): on a store opened fresh, after `set("a", v)` with the value
`v` of `2 ^ 30 - 12` bytes that ends in `x` (a record of `2 ^ 30 + 1` bytes, within 32
bits), `close()` and `open()`, the call `get("a")` returns `v` with its last byte zeroed,
not `v`: the one `Read` of `get` transfers `2 ^ 30` bytes. -/
theorem persistence_get_truncated :
    12 + keyA.length + capValue.length < 2 ^ 32 ∧
    ((openStore noStore).bind fun d =>
        (openStore (d.set 0 keyA capValue).close).bind fun d' =>
          d'.get keyA).map Prod.fst = some (capPrefix ++ [0]) ∧
    capPrefix ++ [0] ≠ capValue := by
  refine ⟨?_, ?_, capValue_ne_zeroed⟩
  · rw [capValue_length]
    decide
  · rw [openStore_noStore, Option.some_bind, database.get_after_reopen, capStore_get]

/-- C15 (amended): persistence round trip. For every store opened fresh (no log file),
every key `k` and value `v` with a record of at most `2 ^ 30` bytes
(`12 + len(k) + len(v) ≤ 2 ^ 30`, what one `Read` transfers): `open` returns an engine `d`,
and after `set(k, v); close()`, `open` on the same store returns an engine `d'` such that
`get(k)` returns `v` and the index of `d'` is the index held at close. -/
theorem persistence_round_trip (disk : Disk) (hfresh : disk.log = none) (now : Int)
    (k v : Bytes) (hsz : 12 + k.length + v.length ≤ 2 ^ 30) :
    ∃ d d', openStore disk = some d ∧ openStore (d.set now k v).close = some d' ∧
      (d'.get k).map Prod.fst = some v ∧ d'.keyMap = (d.set now k v).keyMap := by
  refine ⟨freshDB, _, openStore_of_no_log disk hfresh, openStore_close _, ?_, rfl⟩
  rw [← database.get_set_of_aligned freshDB now k v freshDB_aligned (by decide) hsz]
  exact database.get_fst_congr _ _ k rfl rfl

theorem persistence_round_trip_witness :
    ∃ d d', openStore noStore = some d ∧ openStore (d.set 7 keyA val1).close = some d' ∧
      (d'.get keyA).map Prod.fst = some val1 ∧ d'.keyMap = (d.set 7 keyA val1).keyMap :=
  persistence_round_trip noStore rfl 7 keyA val1 (by decide)

/-- C16 (fails as stated): for the store whose log holds the one complete record of
`set("a","1")` and whose snapshot file is missing, `open` does not return an engine: the
snapshot cannot be decoded and the process ends (`log.Fatalf`). -/
theorem open_without_snapshot_is_fatal : openStore logWithoutSnapshot = none := by
  decide

/-- C16 (amended): for every existing log file, whatever it holds, with no decodable
snapshot file, `open` ends the process instead of returning an engine; with a snapshot
file, `open` returns the index of the snapshot as it is and the log as it is. The
engine has no replay of the log. -/
theorem open_needs_the_snapshot (log : Bytes) :
    openStore { log := some log, snapshot := none } = none ∧
    ∀ m : KeyMap, ∃ d, openStore { log := some log, snapshot := some m } = some d ∧
      d.keyMap = m ∧ d.file.contents = log :=
  ⟨rfl, fun _ => ⟨_, rfl, rfl, rfl⟩⟩

/-- C17 (fails as stated): on the fresh store that holds one record of `2 ^ 32` bytes
for `a` (write cursor `c = 2 ^ 32`), `delete("a")` succeeds and leaves the entry of `a`
with position 0, not `c`. -/
theorem delete_position_truncated :
    (freshDB.set 0 keyA bigValue).offsetPosition = 4294967296 ∧
    ((freshDB.set 0 keyA bigValue).delete 0 keyA).2 = none ∧
    ((freshDB.set 0 keyA bigValue).delete 0 keyA).1.keyMap.lookup keyA
      = some { Timestamp := 0, Position := 0, TotalSize := 20 } := by
  rw [database.delete_of_mem _ 0 keyA (database.mem_set freshDB 0 keyA bigValue)]
  refine ⟨bigStore_offsetPosition, rfl, ?_⟩
  show ((freshDB.set 0 keyA bigValue).set 0 keyA deleted).keyMap.lookup keyA = _
  rw [database.set_lookup, bigStore_offsetPosition]
  rfl

/-- C17 (amended): for every engine state with write cursor `c` and every key `k`
present in the index, `delete(k)` succeeds; afterwards `k` is still present, its entry
has position `c mod 2 ^ 32` and total size `(12 + len(k) + len("deleted")) mod 2 ^ 32`
(which are `c` and the size of the record when both are below `2 ^ 32`), every other
key's entry is unchanged, and the set of keys of the index is unchanged. -/
theorem delete_keeps_the_key (d : database) (now : Int) (k : Bytes) (hk : k ∈ d.keyMap) :
    (d.delete now k).2 = none ∧
    k ∈ (d.delete now k).1.keyMap ∧
    (d.delete now k).1.keyMap.lookup k
      = some { Timestamp := uint32OfInt64 now, Position := d.offsetPosition % 2 ^ 32,
               TotalSize := (12 + k.length + deleted.length) % 2 ^ 32 } ∧
    (d.offsetPosition < 2 ^ 32 → 12 + k.length + deleted.length < 2 ^ 32 →
      (d.delete now k).1.keyMap.lookup k
        = some { Timestamp := uint32OfInt64 now, Position := d.offsetPosition,
                 TotalSize := 12 + k.length + deleted.length }) ∧
    (∀ k', k' ≠ k → (d.delete now k).1.keyMap.lookup k' = d.keyMap.lookup k') ∧
    (∀ k', k' ∈ (d.delete now k).1.keyMap ↔ k' ∈ d.keyMap) := by
  rw [database.delete_of_mem d now k hk]
  refine ⟨rfl, database.mem_set d now k deleted, database.set_lookup d now k deleted, ?_,
    fun k' h => database.set_lookup_ne d now k deleted k' h, ?_⟩
  · intro hc hs
    show (d.set now k deleted).keyMap.lookup k = _
    rw [database.set_lookup, uint32_of_lt hc, uint32_of_lt hs]
    rfl
  · intro k'
    show k' ∈ (d.set now k deleted).keyMap ↔ _
    simp only [database.set, AList.mem_insert]
    constructor
    · rintro (rfl | h)
      · exact hk
      · exact h
    · exact Or.inr

theorem delete_keeps_the_key_witness :
    ((freshDB.set 3 keyA val1).delete 4 keyA).2 = none ∧
    keyA ∈ ((freshDB.set 3 keyA val1).delete 4 keyA).1.keyMap ∧
    ((freshDB.set 3 keyA val1).delete 4 keyA).1.keyMap.lookup keyA
      = some { Timestamp := uint32OfInt64 4,
               Position := (freshDB.set 3 keyA val1).offsetPosition % 2 ^ 32,
               TotalSize := (12 + keyA.length + deleted.length) % 2 ^ 32 } ∧
    ((freshDB.set 3 keyA val1).offsetPosition < 2 ^ 32 →
      12 + keyA.length + deleted.length < 2 ^ 32 →
      ((freshDB.set 3 keyA val1).delete 4 keyA).1.keyMap.lookup keyA
        = some { Timestamp := uint32OfInt64 4,
                 Position := (freshDB.set 3 keyA val1).offsetPosition,
                 TotalSize := 12 + keyA.length + deleted.length }) ∧
    (∀ k', k' ≠ keyA → ((freshDB.set 3 keyA val1).delete 4 keyA).1.keyMap.lookup k'
        = (freshDB.set 3 keyA val1).keyMap.lookup k') ∧
    (∀ k', k' ∈ ((freshDB.set 3 keyA val1).delete 4 keyA).1.keyMap
        ↔ k' ∈ (freshDB.set 3 keyA val1).keyMap) :=
  delete_keeps_the_key (freshDB.set 3 keyA val1) 4 keyA (by decide)

/-- C18: for every `set(k, v)` and every successful `delete(k)` at wall-clock time `t`,
the record that the call writes has the header timestamp field equal to the timestamp
of the index entry of `k`, and both are `t mod 2 ^ 32`; when writes land at the write
cursor, that record is what the call appends to the log. -/
theorem timestamp_is_time_mod_2_pow_32 (d : database) (t : Int) (k v : Bytes) :
    (∃ e, (d.set t k v).keyMap.lookup k = some e ∧
      (d.set t k v).file = d.file.Write (encodeKV e.Timestamp k v).1 ∧
      headerTimestamp (encodeKV e.Timestamp k v).1 = some e.Timestamp ∧
      (e.Timestamp : Int) = t % 2 ^ 32 ∧
      (d.Aligned → (d.set t k v).file.contents
        = d.file.contents ++ (encodeKV e.Timestamp k v).1)) ∧
    (k ∈ d.keyMap → ∃ e, (d.delete t k).2 = none ∧
      (d.delete t k).1.keyMap.lookup k = some e ∧
      (d.delete t k).1.file = d.file.Write (encodeKV e.Timestamp k deleted).1 ∧
      headerTimestamp (encodeKV e.Timestamp k deleted).1 = some e.Timestamp ∧
      (e.Timestamp : Int) = t % 2 ^ 32 ∧
      (d.Aligned → (d.delete t k).1.file.contents
        = d.file.contents ++ (encodeKV e.Timestamp k deleted).1)) := by
  have hlt := uint32OfInt64_lt t
  have hmod : ((uint32OfInt64 t : Nat) : Int) = t % 2 ^ 32 := by
    unfold uint32OfInt64; omega
  constructor
  · exact ⟨_, database.set_lookup d t k v, rfl,
      headerTimestamp_encodeKV _ k v hlt, hmod,
      fun hA => database.set_contents_of_aligned d t k v hA⟩
  · intro hk
    rw [database.delete_of_mem d t k hk]
    exact ⟨_, rfl, database.set_lookup d t k deleted, rfl,
      headerTimestamp_encodeKV _ k deleted hlt, hmod,
      fun hA => database.set_contents_of_aligned d t k deleted hA⟩

theorem timestamp_is_time_mod_2_pow_32_witness :
    ∃ e, ((freshDB.set 3 keyA val1).delete (-1) keyA).2 = none ∧
      ((freshDB.set 3 keyA val1).delete (-1) keyA).1.keyMap.lookup keyA = some e ∧
      ((freshDB.set 3 keyA val1).delete (-1) keyA).1.file
        = (freshDB.set 3 keyA val1).file.Write (encodeKV e.Timestamp keyA deleted).1 ∧
      headerTimestamp (encodeKV e.Timestamp keyA deleted).1 = some e.Timestamp ∧
      (e.Timestamp : Int) = (-1) % 2 ^ 32 ∧
      ((freshDB.set 3 keyA val1).Aligned →
        ((freshDB.set 3 keyA val1).delete (-1) keyA).1.file.contents
          = (freshDB.set 3 keyA val1).file.contents ++ (encodeKV e.Timestamp keyA deleted).1) :=
  (timestamp_is_time_mod_2_pow_32 (freshDB.set 3 keyA val1) (-1) keyA val1).2 (by decide)

/-! ## Call sequences on a fresh store -/

theorem RecordAt.append_more {log k v : Bytes} {e : keyDir} (h : RecordAt log k v e)
    (more : Bytes) : RecordAt (log ++ more) k v e := by
  obtain ⟨pre, post, ts, hlog, hp, hs, hts, hsz⟩ := h
  exact ⟨pre, post ++ more, ts, by rw [hlog, List.append_assoc], hp, hs, hts, hsz⟩

theorem Refines.fresh : Refines freshDB { log := [], last := fun _ => none } :=
  ⟨freshDB_aligned, rfl, fun _ _ => rfl, fun _ _ h => by cases h⟩

theorem Refines.set {d : database} {t : Trace} (h : Refines d t) (now : Int) (k v : Bytes)
    (hb : t.log.length + (12 + k.length + v.length) < 4294967296) :
    Refines (d.set now k v)
      { log := t.log ++ (encodeKV (uint32OfInt64 now) k v).1
        last := fun k' => if k' = k then some v else t.last k' } := by
  obtain ⟨hA, hlog, hnone, hsome⟩ := h
  have hc : d.offsetPosition = t.log.length := by rw [hA.1, hlog]
  have hcont := database.set_contents_of_aligned d now k v hA
  refine ⟨database.set_aligned d now k v hA, by rw [hcont, hlog], ?_, ?_⟩
  · intro k' hk'
    by_cases e : k' = k
    · simp only [e, if_true] at hk'
      cases hk'
    · simp only [e, if_false] at hk'
      rw [database.set_lookup_ne d now k v k' e]
      exact hnone k' hk'
  · intro k' v' hk'
    by_cases e : k' = k
    · subst e
      simp only [if_true] at hk'
      cases hk'
      refine ⟨_, database.set_lookup d now k' v, d.file.contents, [], uint32OfInt64 now, ?_, ?_,
        ?_, uint32OfInt64_lt now, by omega⟩
      · rw [hcont, List.append_nil]
      · simp only [newKeyDir, uint32_of_lt (show d.offsetPosition < 4294967296 by omega)]
        exact hA.1
      · simp only [newKeyDir,
          uint32_of_lt (show 12 + k'.length + v.length < 4294967296 by omega)]
    · simp only [e, if_false] at hk'
      obtain ⟨e', he', hr⟩ := hsome k' v' hk'
      refine ⟨e', ?_, ?_⟩
      · rw [database.set_lookup_ne d now k v k' e]
        exact he'
      · rw [hcont]
        exact hr.append_more _

theorem Trace.log_length_le_step (t : Trace) (op : Op) :
    t.log.length ≤ (t.step op).log.length := by
  cases op with
  | set now k v => simp only [Trace.step, List.length_append]; omega
  | delete now k =>
    cases hl : t.last k with
    | none => simp only [Trace.step, hl]; exact Nat.le_refl _
    | some v => simp only [Trace.step, hl, List.length_append]; omega

theorem Trace.log_length_le_foldl (ops : List Op) :
    ∀ t : Trace, t.log.length ≤ (ops.foldl Trace.step t).log.length := by
  induction ops with
  | nil => intro t; exact Nat.le_refl _
  | cons op ops ih =>
    intro t
    exact Nat.le_trans (t.log_length_le_step op) (ih (t.step op))

theorem Refines.step {d : database} {t : Trace} (h : Refines d t) (op : Op)
    (hb : (t.step op).log.length < 4294967296) : Refines (d.apply op) (t.step op) := by
  cases op with
  | set now k v =>
    simp only [Trace.step, List.length_append, encodeKV_length] at hb
    exact h.set now k v hb
  | delete now k =>
    cases hl : t.last k with
    | none =>
      have hk : k ∉ d.keyMap := AList.lookup_eq_none.mp (h.2.2.1 k hl)
      simp only [Trace.step, hl, database.apply, database.delete_of_not_mem d now k hk]
      exact h
    | some v =>
      obtain ⟨e, he, -⟩ := h.2.2.2 k v hl
      have hk : k ∈ d.keyMap := AList.lookup_isSome.mp (by rw [he]; rfl)
      simp only [Trace.step, hl, List.length_append, encodeKV_length] at hb
      simp only [Trace.step, hl, database.apply, database.delete_of_mem d now k hk]
      exact h.set now k deleted hb

theorem Refines.run (ops : List Op) :
    ∀ (d : database) (t : Trace), Refines d t →
      (ops.foldl Trace.step t).log.length < 4294967296 →
      Refines (d.run ops) (ops.foldl Trace.step t) := by
  induction ops with
  | nil => intro d t h _; exact h
  | cons op ops ih =>
    intro d t h hb
    have hb' : (t.step op).log.length < 4294967296 :=
      Nat.lt_of_le_of_lt (Trace.log_length_le_foldl ops (t.step op)) hb
    exact ih (d.apply op) (t.step op) (h.step op hb') hb

theorem Refines.get {d : database} {t : Trace} (h : Refines d t) (k : Bytes)
    (hk : k ∈ d.keyMap) :
    ∃ v, t.last k = some v ∧
      (12 + k.length + v.length ≤ 1073741824 → (d.get k).map Prod.fst = some v) := by
  cases hl : t.last k with
  | none => exact absurd hk (AList.lookup_eq_none.mp (h.2.2.1 k hl))
  | some v =>
    obtain ⟨e, he, pre, post, ts, hlog, hp, hs, hts, -⟩ := h.2.2.2 k v hl
    exact ⟨v, rfl, fun hcap =>
      database.get_of_record d k e pre post ts k v he hlog hp hs hts hcap⟩

/-- C19 (fails as stated): on a freshly created store, the one call `set("a", v)` with
the value `v` of `2 ^ 30 - 12` bytes that ends in `x` writes one record of `2 ^ 30 + 1`
bytes (fewer than `2 ^ 32`); the key `a` is in the index and the value of its last record
is `v`, but `get("a")` returns `v` with its last byte zeroed: the one `Read` of `get`
transfers `2 ^ 30` bytes. -/
theorem write_sequence_get_truncated :
    (Trace.of [Op.set 0 keyA capValue]).log.length < 2 ^ 32 ∧
    keyA ∈ (freshDB.run [Op.set 0 keyA capValue]).keyMap ∧
    (Trace.of [Op.set 0 keyA capValue]).last keyA = some capValue ∧
    ((freshDB.run [Op.set 0 keyA capValue]).get keyA).map Prod.fst
      = some (capPrefix ++ [0]) ∧
    capPrefix ++ [0] ≠ capValue := by
  have hrun : freshDB.run [Op.set 0 keyA capValue] = freshDB.set 0 keyA capValue := rfl
  rw [hrun]
  refine ⟨?_, database.mem_set freshDB 0 keyA capValue, ?_, capStore_get,
    capValue_ne_zeroed⟩
  · show ([] ++ (encodeKV (uint32OfInt64 0) keyA capValue).1).length < 2 ^ 32
    rw [List.nil_append, encodeKV_length, capValue_length]
    decide
  · show (if keyA = keyA then some capValue else (none : Option Bytes)) = some capValue
    exact if_pos rfl

/-- C19 (amended): starting from a freshly created store (`open` where no log file
exists: empty log, empty index, cursor 0) and applying any finite sequence of `set` and
`delete` calls whose records total fewer than `2 ^ 32` bytes: the log is the
concatenation, in call order, of the records of the `set` calls and of the successful
`delete` calls; the write cursor is the length of the log; the keys of the index are the
keys that have a record; and for every key `k` of the index whose last record is at most
`2 ^ 30` bytes long (what one `Read` transfers), `get(k)` returns the value of that record
(the value of the last `set`, or the text `"deleted"` when a `delete` came last). -/
theorem write_sequence_on_fresh_store (ops : List Op)
    (h : (Trace.of ops).log.length < 2 ^ 32) :
    openStore noStore = some freshDB ∧
    (freshDB.run ops).file.contents = (Trace.of ops).log ∧
    (freshDB.run ops).offsetPosition = (freshDB.run ops).file.contents.length ∧
    (∀ k, k ∈ (freshDB.run ops).keyMap ↔ ∃ v, (Trace.of ops).last k = some v) ∧
    ∀ k, k ∈ (freshDB.run ops).keyMap →
      ∃ v, (Trace.of ops).last k = some v ∧
        (12 + k.length + v.length ≤ 2 ^ 30 →
          ((freshDB.run ops).get k).map Prod.fst = some v) := by
  have hr : Refines (freshDB.run ops) (Trace.of ops) := Refines.run ops _ _ Refines.fresh h
  refine ⟨rfl, hr.2.1, hr.1.1, fun k => ⟨fun hk => ?_, ?_⟩, fun k hk => hr.get k hk⟩
  · obtain ⟨v, hv, -⟩ := hr.get k hk
    exact ⟨v, hv⟩
  · rintro ⟨v, hv⟩
    obtain ⟨e, he, -⟩ := hr.2.2.2 k v hv
    exact AList.lookup_isSome.mp (by rw [he]; rfl)

theorem write_sequence_on_fresh_store_witness :
    openStore noStore = some freshDB ∧
    (freshDB.run 
      [Op.delete 1 keyB, Op.set 2 keyA val1, Op.set 3 keyB val2, Op.delete 4 keyA]).file.contents = (Trace.of 
      [Op.delete 1 keyB, Op.set 2 keyA val1, Op.set 3 keyB val2, Op.delete 4 keyA]).log ∧
    (freshDB.run 
      [Op.delete 1 keyB, Op.set 2 keyA val1, Op.set 3 keyB val2, Op.delete 4 keyA]).offsetPosition = (freshDB.run 
      [Op.delete 1 keyB, Op.set 2 keyA val1, Op.set 3 keyB val2, Op.delete 4 keyA]).file.contents.length ∧
    (∀ k, k ∈ (freshDB.run 
      [Op.delete 1 keyB, Op.set 2 keyA val1, Op.set 3 keyB val2, Op.delete 4 keyA]).keyMap ↔ ∃ v, (Trace.of 
      [Op.delete 1 keyB, Op.set 2 keyA val1, Op.set 3 keyB val2, Op.delete 4 keyA]).last k = some v) ∧
    ∀ k, k ∈ (freshDB.run 
      [Op.delete 1 keyB, Op.set 2 keyA val1, Op.set 3 keyB val2, Op.delete 4 keyA]).keyMap →
      ∃ v, (Trace.of 
      [Op.delete 1 keyB, Op.set 2 keyA val1, Op.set 3 keyB val2, Op.delete 4 keyA]).last k = some v ∧
        (12 + k.length + v.length ≤ 2 ^ 30 →
          ((freshDB.run 
      [Op.delete 1 keyB, Op.set 2 keyA val1, Op.set 3 keyB val2, Op.delete 4 keyA]).get k).map Prod.fst = some v) :=
  write_sequence_on_fresh_store 
      [Op.delete 1 keyB, Op.set 2 keyA val1, Op.set 3 keyB val2, Op.delete 4 keyA] (by decide)

end Toydb
